import Mathlib

/-!
Shallow embedding of `finetune_deepseek.py` (fill-in-the-middle supervised
fine-tuning script) and proofs of its specified properties.

Python strings are modelled as `List Char` (a Python `str` is a sequence of
unicode code points), token ids as `Int` (Python ints; the label sentinel is
the negative value -100), and tensors of ids as `List Int` / `List (List Int)`.
-/

set_option maxHeartbeats 1000000

namespace FinetuneDeepseek

/-! ### Module-level constants (lines 15-19 of the source) -/

def BEGIN_TOKEN : List Char := String.toList "<｜fim▁begin｜>"

def FILL_TOKEN : List Char := String.toList "<｜fim▁hole｜>"

def END_TOKEN : List Char := String.toList "<｜fim▁end｜>"

def IGNORE_INDEX : Int := -100

def EOT_TOKEN : List Char := String.toList "<|EOT|>"

/-- The fill placeholder literal appearing in `build_masked_func`
(`'<FILL_FUNCTION_BODY>'`). -/
def FILL_FUNCTION_BODY : List Char := String.toList "<FILL_FUNCTION_BODY>"

/-! ### Substring occurrence counting

`countOccs pat s` is the number of positions of `s` at which the pattern
`pat` occurs as a contiguous substring ("s contains exactly k occurrences of
pat" is `countOccs pat s = k`; for the concrete nonempty patterns used here,
occurrences cannot overlap, so this agrees with Python's `str.count`). -/

def countOccs (pat : List Char) : List Char → Nat
  | [] => 0
  | c :: rest => (if pat <+: c :: rest then 1 else 0) + countOccs pat rest

/-! ### Python `str.replace`

`replaceGo` is a fuel-indexed helper (fuel bounds the number of scanning
steps; `replaceList pat rep s` runs it with fuel `s.length`, which always
suffices).  It mirrors CPython's `str.replace`: scan left to right, and at
each position either replace a leftmost occurrence of `pat` and resume after
it, or keep the character.  Python's behaviour for an empty pattern (which
inserts `rep` at every boundary) is not modelled; the script only ever
replaces the nonempty literal `'<FILL_FUNCTION_BODY>'`. -/

def replaceGo (pat rep : List Char) : Nat → List Char → List Char
  | 0, s => s
  | _ + 1, [] => []
  | fuel + 1, c :: rest =>
    if pat ≠ [] ∧ pat <+: c :: rest then
      rep ++ replaceGo pat rep fuel ((c :: rest).drop pat.length)
    else
      c :: replaceGo pat rep fuel rest

def replaceList (pat rep s : List Char) : List Char :=
  replaceGo pat rep s.length s

/-- Model of `build_masked_func` (lines 21-23):
`masked_func.replace('<FILL_FUNCTION_BODY>', FILL_TOKEN)` wrapped between
`BEGIN_TOKEN` and `END_TOKEN`. -/
def build_masked_func (masked_func : List Char) : List Char :=
  BEGIN_TOKEN ++ replaceList FILL_FUNCTION_BODY FILL_TOKEN masked_func ++ END_TOKEN

/-! ### The tokenizer, `_tokenize_fn` and `preprocess`

The HuggingFace tokenizer is an opaque third-party dependency; it is modelled
by its call contract: `encode` maps a text to the token-id sequence the
tokenizer produces for it (special tokens included), `model_max_length` is the
configured maximum length, `pad_token_id` the id of the padding token.  A call
`tokenizer(text, return_tensors="pt", padding="longest", max_length=
tokenizer.model_max_length, truncation=True)` on a SINGLE text (which is how
`_tokenize_fn` invokes it, one string at a time inside a list comprehension)
truncates to `model_max_length`; `padding="longest"` pads to the longest
sequence of the call's own batch, which for a singleton batch is the
sequence's own length, i.e. it adds no padding. -/

structure Tokenizer where
  encode : List Char → List Int
  model_max_length : Nat
  pad_token_id : Int

/-- One `tokenizer(text, ..., padding="longest", max_length=model_max_length,
truncation=True)` call on a single text (see the contract note above). -/
def callTokenizer (tok : Tokenizer) (text : List Char) : List Int :=
  (tok.encode text).take tok.model_max_length

/-- Result dictionary of `_tokenize_fn` (lines 52-75). -/
structure TokenizeResult where
  input_ids : List (List Int)
  labels : List (List Int)
  input_ids_lens : List Nat
  labels_lens : List Nat

/-- Model of `tokenized.input_ids.ne(tokenizer.pad_token_id).sum().item()`:
the number of non-pad ids of a tokenized sequence. -/
def countNonPad (pad : Int) (ids : List Int) : Nat :=
  List.countP (fun x => x != pad) ids

/-- Model of `_tokenize_fn` (lines 52-75): tokenize each string of the list separately;
`input_ids` and `labels` alias the same token-id sequences, and the recorded
lengths count the non-pad ids of each sequence. -/
def _tokenize_fn (strings : List (List Char)) (tok : Tokenizer) : TokenizeResult :=
  let tokenized_list := strings.map (fun text => callTokenizer tok text)
  { input_ids := tokenized_list
    labels := tokenized_list
    input_ids_lens := tokenized_list.map (fun ids => countNonPad tok.pad_token_id ids)
    labels_lens := tokenized_list.map (fun ids => countNonPad tok.pad_token_id ids) }

/-- Model of `label[:source_len] = IGNORE_INDEX` on a 1-d tensor: overwrite the first
`source_len` entries (clamped to the tensor's length) with `IGNORE_INDEX`. -/
def maskFirst : Nat → List Int → List Int
  | _, [] => []
  | 0, l => l
  | n + 1, _ :: rest => IGNORE_INDEX :: maskFirst n rest

/-- Result dictionary of `preprocess` (lines 78-91). -/
structure PreprocessResult where
  input_ids : List (List Int)
  labels : List (List Int)

/-- Model of `preprocess` (lines 78-91): tokenize the prompt+target concatenations and
the prompts alone; labels are a deep copy of the concatenation ids with the
first `source_len` positions overwritten by `IGNORE_INDEX`, where
`source_len` is the recorded non-pad length of the prompt alone. -/
def preprocess (sources targets : List (List Char)) (tok : Tokenizer) :
    PreprocessResult :=
  let examples := (List.zip sources targets).map (fun p => p.1 ++ p.2)
  let examples_tokenized := _tokenize_fn examples tok
  let sources_tokenized := _tokenize_fn sources tok
  let input_ids := examples_tokenized.input_ids
  let labels := (List.zip input_ids sources_tokenized.input_ids_lens).map
    (fun p => maskFirst p.2 p.1)
  { input_ids := input_ids, labels := labels }

/-! ### The batch collator (`DataCollatorForSupervisedDataset.__call__`) -/

/-- One element of the tokenized training dataset: an `input_ids`/`labels`
pair as produced by `preprocess`. -/
structure SFTInstance where
  input_ids : List Int
  labels : List Int

/-- Length of the longest sequence of a batch (the width
`torch.nn.utils.rnn.pad_sequence` pads to). -/
def batchMaxLen (seqs : List (List Int)) : Nat :=
  (seqs.map List.length).foldr Nat.max 0

/-- Model of `torch.nn.utils.rnn.pad_sequence(seqs, batch_first=True, padding_value=v)`:
right-pad every sequence to the length of the longest one. -/
def pad_sequence (seqs : List (List Int)) (padding_value : Int) : List (List Int) :=
  seqs.map (fun s => s ++ List.replicate (batchMaxLen seqs - s.length) padding_value)

/-- Output dictionary of the collator. -/
structure CollatorBatch where
  input_ids : List (List Int)
  labels : List (List Int)
  attention_mask : List (List Bool)

/-- Model of `DataCollatorForSupervisedDataset.__call__` (lines 98-111): pad the
input ids with the tokenizer's pad id, pad the labels with `IGNORE_INDEX`,
and derive the attention mask as `input_ids.ne(tokenizer.pad_token_id)`. -/
def DataCollatorForSupervisedDataset_call (tok : Tokenizer)
    (instances : List SFTInstance) : CollatorBatch :=
  let input_ids := pad_sequence (instances.map (fun inst => inst.input_ids))
    tok.pad_token_id
  let labels := pad_sequence (instances.map (fun inst => inst.labels)) IGNORE_INDEX
  { input_ids := input_ids
    labels := labels
    attention_mask := input_ids.map (fun row => row.map (fun x => x != tok.pad_token_id)) }

/-! ### `train_tokenize_function` and the train orchestration -/

/-- A batch of raw dataset records as handed to `train_tokenize_function`:
the `masked_contract` and `func_body` columns. -/
structure RawExamples where
  masked_contract : List (List Char)
  func_body : List (List Char)

/-- The prompt strings built by `train_tokenize_function` (lines 114-117). -/
def train_sources (examples : RawExamples) : List (List Char) :=
  examples.masked_contract.map (fun instruction => build_masked_func instruction)

/-- The target strings built by `train_tokenize_function` (line 118):
`f"{output}\n{EOT_TOKEN}"`. -/
def train_targets (examples : RawExamples) : List (List Char) :=
  examples.func_body.map (fun output => output ++ '\n' :: EOT_TOKEN)

/-- Model of `train_tokenize_function` (lines 113-120). -/
def train_tokenize_function (examples : RawExamples) (tok : Tokenizer) :
    PreprocessResult :=
  preprocess (train_sources examples) (train_targets examples) tok

/-- The dataset split argument of the `load_dataset` call (line 163). -/
def train_split_spec : List Char := String.toList "train[:5%]"

/-- Modelled from the external `datasets` library's split-slicing contract
(the library itself is an opaque dependency; `src` only passes it the string
`"train[:5%]"`): `split="train[:p%]"` selects the records before the percent
boundary `round(p * n / 100)` of the `n`-record train split, rounding to the
closest integer (round half up). -/
def load_train_split {α : Type} (records : List α) : List α :=
  records.take ((5 * records.length + 50) / 100)

/-- The two operations of `train` (lines 166-181) whose relative order the
distributed barrier controls. -/
inductive TrainEvent where
  | mapDataset : TrainEvent
  | barrier : TrainEvent
deriving DecidableEq

/-- The sequence of barrier / dataset-map calls a process with the given
`local_rank` issues in `train` (lines 166-181): ranks `> 0` call
`torch.distributed.barrier()` before `raw_train_datasets.map(...)`; rank `0`
maps first and calls the barrier afterwards. -/
def trainEvents (local_rank : Int) : List TrainEvent :=
  (if local_rank > 0 then [TrainEvent.barrier] else []) ++
    [TrainEvent.mapDataset] ++
    (if local_rank = 0 then [TrainEvent.barrier] else [])

/-- Timestamps of one multi-process execution: when each rank starts/ends its
dataset map and enters/exits its barrier call. -/
structure BarrierExec where
  mapStart : Int → Nat
  mapEnd : Int → Nat
  barEnter : Int → Nat
  barExit : Int → Nat

/-- A rank's timestamps respect its own program order as given by
`trainEvents`. -/
def respectsOrder (e : BarrierExec) (r : Int) : Prop :=
  e.mapStart r ≤ e.mapEnd r ∧ e.barEnter r ≤ e.barExit r ∧
  (trainEvents r = [TrainEvent.barrier, TrainEvent.mapDataset] →
    e.barExit r ≤ e.mapStart r) ∧
  (trainEvents r = [TrainEvent.mapDataset, TrainEvent.barrier] →
    e.mapEnd r ≤ e.barEnter r)

/-- Modelled from the spec: `torch.distributed.barrier()` is the external
runtime's collective barrier — no participating rank leaves the barrier
before every participating rank (the `world_size = W` ranks `0..W-1`) has
entered it.  A valid execution respects every rank's program order and this
collective constraint. -/
def ValidExec (W : Int) (e : BarrierExec) : Prop :=
  (∀ r : Int, 0 ≤ r → r < W → respectsOrder e r) ∧
  (∀ r s : Int, 0 ≤ r → r < W → 0 ≤ s → s < W → e.barEnter r ≤ e.barExit s)

/-- A concrete two-rank execution used to exhibit a valid schedule. -/
def sampleExec : BarrierExec where
  mapStart := fun r => if r = 0 then 0 else 3
  mapEnd := fun r => if r = 0 then 1 else 4
  barEnter := fun r => if r = 0 then 1 else 2
  barExit := fun _ => 2

/-- A small tokenizer instance used for concrete witnesses: each character is
one token (its code point, shifted by 1 so that no encoded id collides with
the pad id 0). -/
def toyTok : Tokenizer where
  encode := fun s => s.map (fun c => (c.toNat : Int) + 1)
  model_max_length := 8
  pad_token_id := 0

end FinetuneDeepseek

namespace FinetuneDeepseek

/-! ### Basic facts about prefixes, `countOccs` and `replaceList` -/

theorem pfx_take (n : Nat) (l : List α) : l.take n <+: l :=
  ⟨l.drop n, List.take_append_drop n l⟩

theorem pfx_len_le {l₁ l₂ : List α} (h : l₁ <+: l₂) : l₁.length ≤ l₂.length := by
  obtain ⟨t, rfl⟩ := h
  simp

theorem pfx_iff_take {l₁ l₂ : List α} : l₁ <+: l₂ ↔ l₂.take l₁.length = l₁ := by
  constructor
  · rintro ⟨t, rfl⟩
    exact List.take_left l₁ t
  · intro h
    exact h ▸ pfx_take l₁.length l₂

theorem pfx_cons_cons {a b : α} {l₁ l₂ : List α} :
    a :: l₁ <+: b :: l₂ ↔ a = b ∧ l₁ <+: l₂ := by
  constructor
  · rintro ⟨t, ht⟩
    injection ht with h1 h2
    exact ⟨h1, t, h2⟩
  · rintro ⟨rfl, t, rfl⟩
    exact ⟨t, rfl⟩

theorem pfx_append_of_le {pat a b : List α} (h : pat.length ≤ a.length) :
    pat <+: a ++ b ↔ pat <+: a := by
  rw [pfx_iff_take, pfx_iff_take, List.take_append_eq_append_take,
    Nat.sub_eq_zero_of_le h, List.take_zero, List.append_nil]

theorem pfx_append_cross {pat a b : List α} (h : a.length < pat.length) :
    pat <+: a ++ b ↔ a <+: pat ∧ pat.drop a.length <+: b := by
  constructor
  · intro hp
    have htake := pfx_iff_take.mp hp
    rw [List.take_append_eq_append_take, List.take_of_length_le (Nat.le_of_lt h)] at htake
    have hd : pat.drop a.length = List.take (pat.length - a.length) b := by
      conv_lhs => rw [← htake]
      rw [List.drop_left]
    refine ⟨⟨_, htake⟩, ?_⟩
    rw [hd]
    exact pfx_take _ b
  · rintro ⟨⟨t, ht⟩, hb⟩
    have : pat = a ++ pat.drop a.length := by
      conv_lhs => rw [← List.take_append_drop a.length pat]
      have : pat.take a.length = a := by
        rw [← ht, List.take_left]
      rw [this]
    obtain ⟨u, hu⟩ := hb
    refine ⟨u, ?_⟩
    rw [this, List.append_assoc, hu]

theorem countOccs_nil (pat : List Char) : countOccs pat [] = 0 := rfl

theorem countOccs_cons (pat : List Char) (c : Char) (rest : List Char) :
    countOccs pat (c :: rest) =
      (if pat <+: c :: rest then 1 else 0) + countOccs pat rest := rfl

theorem le_countOccs_append (pat a b : List Char) :
    countOccs pat b ≤ countOccs pat (a ++ b) := by
  induction a with
  | nil => simp
  | cons c a ih =>
    rw [List.cons_append, countOccs_cons]
    omega

theorem not_pfx_of_countOccs_eq_zero {pat s : List Char} (hpat : pat ≠ [])
    (h : countOccs pat s = 0) : ¬ pat <+: s := by
  cases s with
  | nil =>
    intro hp
    exact hpat (List.eq_nil_of_length_eq_zero (Nat.le_zero.mp (pfx_len_le hp)))
  | cons c rest =>
    rw [countOccs_cons] at h
    intro hp
    rw [if_pos hp] at h
    omega

/-- Splitting an occurrence count at an append boundary, when no occurrence
of the pattern can straddle the boundary. -/
theorem countOccs_append (pat a b : List Char)
    (hcross : ∀ i, i < a.length → a.length < i + pat.length →
      ¬(a.drop i <+: pat ∧ pat.drop (a.length - i) <+: b)) :
    countOccs pat (a ++ b) = countOccs pat a + countOccs pat b := by
  induction a with
  | nil => simp [countOccs_nil]
  | cons c a ih =>
    rw [List.cons_append, countOccs_cons, countOccs_cons pat c a]
    have hrec : countOccs pat (a ++ b) = countOccs pat a + countOccs pat b := by
      apply ih
      intro i hi hlen
      have := hcross (i + 1) (by simp only [List.length_cons]; omega)
        (by simp only [List.length_cons]; omega)
      simpa [Nat.succ_sub_succ] using this
    rw [hrec]
    simp only [← List.cons_append]
    by_cases hlen : pat.length ≤ (c :: a).length
    · rw [if_congr (pfx_append_of_le hlen) rfl rfl]
      omega
    · push_neg at hlen
      have h0 := hcross 0 (by simp) (by simpa using hlen)
      have hnot1 : ¬ pat <+: (c :: a) ++ b := by
        rw [pfx_append_cross hlen]
        simpa using h0
      have hnot2 : ¬ pat <+: c :: a := fun hp => by
        have := pfx_len_le hp
        omega
      rw [if_neg hnot1, if_neg hnot2]
      omega

theorem replaceGo_nilList (pat rep : List Char) (fuel : Nat) :
    replaceGo pat rep fuel [] = [] := by
  cases fuel <;> rfl

theorem replaceGo_congr (pat rep : List Char) :
    ∀ f₁ f₂ s, s.length ≤ f₁ → s.length ≤ f₂ →
      replaceGo pat rep f₁ s = replaceGo pat rep f₂ s := by
  intro f₁
  induction f₁ with
  | zero =>
    intro f₂ s hs₁ _
    have : s = [] := List.eq_nil_of_length_eq_zero (Nat.le_zero.mp hs₁)
    subst this
    rw [replaceGo_nilList, replaceGo_nilList]
  | succ f ih =>
    intro f₂ s hs₁ hs₂
    cases s with
    | nil => rw [replaceGo_nilList, replaceGo_nilList]
    | cons c rest =>
      cases f₂ with
      | zero => simp at hs₂
      | succ g =>
        show (if pat ≠ [] ∧ pat <+: c :: rest then
            rep ++ replaceGo pat rep f ((c :: rest).drop pat.length)
          else c :: replaceGo pat rep f rest) =
          (if pat ≠ [] ∧ pat <+: c :: rest then
            rep ++ replaceGo pat rep g ((c :: rest).drop pat.length)
          else c :: replaceGo pat rep g rest)
        by_cases h : pat ≠ [] ∧ pat <+: c :: rest
        · rw [if_pos h, if_pos h]
          have hlp : 0 < pat.length := List.length_pos.mpr h.1
          have hdl : ((c :: rest).drop pat.length).length ≤ f := by
            simp only [List.length_drop, List.length_cons]
            simp only [List.length_cons] at hs₁
            omega
          have hdg : ((c :: rest).drop pat.length).length ≤ g := by
            simp only [List.length_drop, List.length_cons]
            simp only [List.length_cons] at hs₂
            omega
          rw [ih g _ hdl hdg]
        · rw [if_neg h, if_neg h]
          have hl : rest.length ≤ f := by
            simp only [List.length_cons] at hs₁; omega
          have hg : rest.length ≤ g := by
            simp only [List.length_cons] at hs₂; omega
          rw [ih g _ hl hg]

theorem replaceList_nil (pat rep : List Char) : replaceList pat rep [] = [] := rfl

theorem replaceList_cons (pat rep : List Char) (c : Char) (rest : List Char) :
    replaceList pat rep (c :: rest) =
      if pat ≠ [] ∧ pat <+: c :: rest then
        rep ++ replaceList pat rep ((c :: rest).drop pat.length)
      else
        c :: replaceList pat rep rest := by
  show (if pat ≠ [] ∧ pat <+: c :: rest then
      rep ++ replaceGo pat rep rest.length ((c :: rest).drop pat.length)
    else c :: replaceGo pat rep rest.length rest) = _
  by_cases h : pat ≠ [] ∧ pat <+: c :: rest
  · rw [if_pos h, if_pos h]
    have hlp : 0 < pat.length := List.length_pos.mpr h.1
    have : ((c :: rest).drop pat.length).length ≤ rest.length := by
      simp only [List.length_drop, List.length_cons]
      omega
    rw [replaceGo_congr pat rep rest.length ((c :: rest).drop pat.length).length _ this
      (Nat.le_refl _)]
    rfl
  · rw [if_neg h, if_neg h]
    rfl

/-- Prepending a pattern with no nontrivial border contributes exactly one
occurrence. -/
theorem countOccs_self_append (pat : List Char)
    (hnb : ∀ k, k < pat.length → 0 < k → ¬(pat.drop k <+: pat))
    (hself : countOccs pat pat = 1) (v : List Char) :
    countOccs pat (pat ++ v) = 1 + countOccs pat v := by
  rw [countOccs_append pat pat v, hself]
  intro i h1 h2
  rintro ⟨hA, _⟩
  exact hnb i h1 (by omega) hA

theorem countOccs_append_right_safe (pat : List Char)
    (hnb : ∀ k, k < pat.length → 0 < k → ¬(pat.drop k <+: pat))
    (u r : List Char) :
    countOccs pat (u ++ (pat ++ r)) = countOccs pat u + countOccs pat (pat ++ r) := by
  rw [countOccs_append pat u (pat ++ r)]
  intro i h1 h2
  rintro ⟨_, hB⟩
  have hk1 : 0 < u.length - i := by omega
  have hk2 : u.length - i < pat.length := by omega
  have hlen : (pat.drop (u.length - i)).length ≤ pat.length := by
    simp only [List.length_drop]
    omega
  rw [pfx_append_of_le hlen] at hB
  exact hnb (u.length - i) hk2 hk1 hB

theorem countOccs_replaceList_aux :
    ∀ n (s : List Char), s.length ≤ n → countOccs FILL_TOKEN s = 0 →
      countOccs FILL_TOKEN (replaceList FILL_FUNCTION_BODY FILL_TOKEN s) =
        countOccs FILL_FUNCTION_BODY s ∧
      (∀ k, 0 < k → k < FILL_TOKEN.length →
        FILL_TOKEN.drop k <+: replaceList FILL_FUNCTION_BODY FILL_TOKEN s →
        FILL_TOKEN.drop k <+: s) := by
  intro n
  induction n with
  | zero =>
    intro s hs h
    have : s = [] := List.eq_nil_of_length_eq_zero (Nat.le_zero.mp hs)
    subst this
    rw [replaceList_nil]
    refine ⟨rfl, ?_⟩
    intro k hk0 hk hp
    have := pfx_len_le hp
    simp only [List.length_drop, List.length_nil] at this
    omega
  | succ n ih =>
    intro s hs h
    cases s with
    | nil =>
      rw [replaceList_nil]
      refine ⟨rfl, ?_⟩
      intro k hk0 hk hp
      have := pfx_len_le hp
      simp only [List.length_drop, List.length_nil] at this
      omega
    | cons c rest =>
      have hnotFT : ¬ FILL_TOKEN <+: c :: rest :=
        not_pfx_of_countOccs_eq_zero (by decide) h
      have hrest0 : countOccs FILL_TOKEN rest = 0 := by
        rw [countOccs_cons, if_neg hnotFT] at h
        omega
      by_cases hm : FILL_FUNCTION_BODY <+: c :: rest
      · -- a leftmost occurrence of the placeholder is replaced here
        rw [replaceList_cons, if_pos ⟨by decide, hm⟩]
        set v := (c :: rest).drop FILL_FUNCTION_BODY.length with hv
        have hs' : c :: rest = FILL_FUNCTION_BODY ++ v := by
          conv_lhs => rw [← List.take_append_drop FILL_FUNCTION_BODY.length (c :: rest)]
          rw [pfx_iff_take.mp hm]
        have hvlen : v.length ≤ n := by
          have h20 : 0 < FILL_FUNCTION_BODY.length := by decide
          simp only [hv, List.length_drop, List.length_cons]
          simp only [List.length_cons] at hs
          omega
        have hvFT0 : countOccs FILL_TOKEN v = 0 := by
          have hle := le_countOccs_append FILL_TOKEN FILL_FUNCTION_BODY v
          rw [← hs'] at hle
          omega
        obtain ⟨ih1, _⟩ := ih v hvlen hvFT0
        constructor
        · rw [countOccs_self_append FILL_TOKEN (by decide) (by decide), ih1, hs',
            countOccs_self_append FILL_FUNCTION_BODY (by decide) (by decide)]
        · intro k hk0 hk hp
          have hlen : (FILL_TOKEN.drop k).length ≤ FILL_TOKEN.length := by
            simp only [List.length_drop]
            omega
          rw [pfx_append_of_le hlen] at hp
          exact absurd hp ((by decide :
            ∀ k, k < FILL_TOKEN.length → 0 < k → ¬(FILL_TOKEN.drop k <+: FILL_TOKEN)) k hk hk0)
      · -- no occurrence of the placeholder starts here
        rw [replaceList_cons, if_neg (fun hand => hm hand.2)]
        have hrlen : rest.length ≤ n := by
          simp only [List.length_cons] at hs
          omega
        obtain ⟨ih1, ih2⟩ := ih rest hrlen hrest0
        have hhead : ¬ FILL_TOKEN <+: c :: replaceList FILL_FUNCTION_BODY FILL_TOKEN rest := by
          intro hp
          have hFTcons : FILL_TOKEN = '<' :: FILL_TOKEN.drop 1 := by decide
          rw [hFTcons, pfx_cons_cons] at hp
          obtain ⟨hceq, htail⟩ := hp
          have := ih2 1 (by decide) (by decide) htail
          exact hnotFT (by rw [hFTcons, pfx_cons_cons]; exact ⟨hceq, this⟩)
        constructor
        · rw [countOccs_cons, countOccs_cons, if_neg hhead, if_neg hm, ih1]
        · intro k hk0 hk hp
          have hdropk := List.drop_eq_getElem_cons hk
          rw [hdropk, pfx_cons_cons] at hp
          obtain ⟨hceq, htail⟩ := hp
          by_cases hk1 : k + 1 < FILL_TOKEN.length
          · have := ih2 (k + 1) (by omega) hk1 htail
            rw [hdropk, pfx_cons_cons]
            exact ⟨hceq, this⟩
          · have hnil : FILL_TOKEN.drop (k + 1) = [] :=
              List.drop_eq_nil_of_le (by omega)
            rw [hdropk, pfx_cons_cons, hnil]
            exact ⟨hceq, rest, rfl⟩

/-- Replacement by the hole sentinel preserves the occurrence count of the
placeholder as a count of hole sentinels, provided the input contains no hole
sentinel already. -/
theorem countOccs_replaceList (s : List Char) (h : countOccs FILL_TOKEN s = 0) :
    countOccs FILL_TOKEN (replaceList FILL_FUNCTION_BODY FILL_TOKEN s) =
      countOccs FILL_FUNCTION_BODY s :=
  (countOccs_replaceList_aux s.length s (Nat.le_refl _) h).1

/-- Wrapping any string between `BEGIN_TOKEN` and `END_TOKEN` adds no
occurrence of `FILL_TOKEN`. -/
theorem countOccs_wrap (mid : List Char) :
    countOccs FILL_TOKEN (BEGIN_TOKEN ++ mid ++ END_TOKEN) = countOccs FILL_TOKEN mid := by
  rw [List.append_assoc]
  rw [countOccs_append FILL_TOKEN BEGIN_TOKEN (mid ++ END_TOKEN)]
  · rw [countOccs_append FILL_TOKEN mid END_TOKEN]
    · rw [(by decide : countOccs FILL_TOKEN BEGIN_TOKEN = 0),
        (by decide : countOccs FILL_TOKEN END_TOKEN = 0)]
      omega
    · intro i h1 h2
      rintro ⟨_, hB⟩
      exact (by decide : ∀ k, k < FILL_TOKEN.length → 0 < k →
        ¬(FILL_TOKEN.drop k <+: END_TOKEN)) (mid.length - i) (by omega) (by omega) hB
  · intro i h1 h2
    rintro ⟨hA, _⟩
    exact (by decide : ∀ i, i < BEGIN_TOKEN.length →
      ¬(BEGIN_TOKEN.drop i <+: FILL_TOKEN)) i h1 hA

/-! ### Helper lemmas: indexing through `map`, `zip`, `maskFirst` and
`pad_sequence` -/

theorem getD_map_of_lt (f : α → β) (l : List α) (i : Nat) (hi : i < l.length)
    (d : β) (d' : α) : (l.map f).getD i d = f (l.getD i d') := by
  rw [List.getD_eq_getElem _ _ (by simpa), List.getD_eq_getElem _ _ hi]
  simp

theorem getD_zip_of_lt (a : List α) (b : List β) (i : Nat) (h₁ : i < a.length)
    (h₂ : i < b.length) (d₁ : α) (d₂ : β) :
    (a.zip b).getD i (d₁, d₂) = (a.getD i d₁, b.getD i d₂) := by
  have hz : i < (a.zip b).length := by
    rw [List.length_zip]
    omega
  rw [List.getD_eq_getElem _ _ hz, List.getD_eq_getElem _ _ h₁,
    List.getD_eq_getElem _ _ h₂]
  exact List.getElem_zip

theorem getD_replicate_of_lt (n i : Nat) (a d : Int) (h : i < n) :
    (List.replicate n a).getD i d = a := by
  rw [List.getD_eq_getElem _ _ (by simpa)]
  exact List.getElem_replicate a _

theorem getD_mem_of_lt (l : List α) (k : Nat) (hk : k < l.length) (d : α) :
    l.getD k d ∈ l := by
  rw [List.getD_eq_getElem _ _ hk]
  exact List.getElem_mem hk

theorem countNonPad_eq_length (pad : Int) (ids : List Int) (h : pad ∉ ids) :
    countNonPad pad ids = ids.length := by
  unfold countNonPad
  rw [List.countP_eq_length]
  intro a ha
  simp only [bne_iff_ne, ne_eq]
  intro heq
  exact h (heq ▸ ha)

theorem maskFirst_length : ∀ (n : Nat) (l : List Int), (maskFirst n l).length = l.length
  | _, [] => by cases ‹Nat› <;> rfl
  | 0, _ :: _ => rfl
  | n + 1, _ :: rest => by
    show (IGNORE_INDEX :: maskFirst n rest).length = _
    simp [maskFirst_length n rest]

theorem maskFirst_getD_lt (n : Nat) (l : List Int) (i : Nat) (d : Int)
    (hin : i < n) (hil : i < l.length) : (maskFirst n l).getD i d = IGNORE_INDEX := by
  induction n generalizing l i with
  | zero => omega
  | succ n ih =>
    cases l with
    | nil => simp at hil
    | cons x rest =>
      cases i with
      | zero => rfl
      | succ i =>
        show (IGNORE_INDEX :: maskFirst n rest).getD (i + 1) d = IGNORE_INDEX
        rw [List.getD_cons_succ]
        exact ih rest i (by omega) (by simpa using hil)

theorem maskFirst_getD_ge (n : Nat) (l : List Int) (i : Nat) (d : Int)
    (hin : n ≤ i) : (maskFirst n l).getD i d = l.getD i d := by
  induction n generalizing l i with
  | zero => cases l <;> rfl
  | succ n ih =>
    cases l with
    | nil => rfl
    | cons x rest =>
      cases i with
      | zero => omega
      | succ i =>
        show (IGNORE_INDEX :: maskFirst n rest).getD (i + 1) d = _
        rw [List.getD_cons_succ, List.getD_cons_succ]
        exact ih rest i (by omega)

theorem le_batchMaxLen (seqs : List (List Int)) (s : List Int) (hs : s ∈ seqs) :
    s.length ≤ batchMaxLen seqs := by
  induction seqs with
  | nil => cases hs
  | cons t rest ih =>
    have hstep : batchMaxLen (t :: rest) = Nat.max t.length (batchMaxLen rest) := rfl
    rcases List.mem_cons.mp hs with h | h
    · rw [hstep, h]
      exact Nat.le_max_left _ _
    · rw [hstep]
      exact Nat.le_trans (ih h) (Nat.le_max_right _ _)

theorem pad_sequence_getD (seqs : List (List Int)) (v : Int) (k : Nat)
    (hk : k < seqs.length) :
    (pad_sequence seqs v).getD k [] =
      seqs.getD k [] ++ List.replicate (batchMaxLen seqs - (seqs.getD k []).length) v := by
  unfold pad_sequence
  rw [getD_map_of_lt _ _ _ hk _ []]

theorem pad_sequence_row_length (seqs : List (List Int)) (v : Int) (k : Nat)
    (hk : k < seqs.length) :
    ((pad_sequence seqs v).getD k []).length = batchMaxLen seqs := by
  rw [pad_sequence_getD seqs v k hk]
  have hle := le_batchMaxLen seqs (seqs.getD k []) (getD_mem_of_lt seqs k hk [])
  simp only [List.length_append, List.length_replicate]
  omega

/-! ### Claim theorems -/

/-- C2 (amended): for every masked-code string containing exactly one
occurrence of `'<FILL_FUNCTION_BODY>'` and no occurrence of `FILL_TOKEN`
itself, `build_masked_func` returns a string that contains exactly one hole
sentinel `FILL_TOKEN`, starts with `BEGIN_TOKEN`, and ends with `END_TOKEN`. -/
theorem build_masked_func_single_hole (s : List Char)
    (h1 : countOccs FILL_FUNCTION_BODY s = 1)
    (h0 : countOccs FILL_TOKEN s = 0) :
    countOccs FILL_TOKEN (build_masked_func s) = 1 ∧
    BEGIN_TOKEN <+: build_masked_func s ∧
    END_TOKEN <:+ build_masked_func s := by
  refine ⟨?_, ?_, ?_⟩
  · unfold build_masked_func
    rw [countOccs_wrap, countOccs_replaceList s h0, h1]
  · refine ⟨replaceList FILL_FUNCTION_BODY FILL_TOKEN s ++ END_TOKEN, ?_⟩
    unfold build_masked_func
    rw [List.append_assoc]
  · exact ⟨BEGIN_TOKEN ++ replaceList FILL_FUNCTION_BODY FILL_TOKEN s, rfl⟩

theorem build_masked_func_single_hole_witness :
    countOccs FILL_FUNCTION_BODY (String.toList "def f(): <FILL_FUNCTION_BODY> end") = 1 ∧
    countOccs FILL_TOKEN (String.toList "def f(): <FILL_FUNCTION_BODY> end") = 0 ∧
    (countOccs FILL_TOKEN
        (build_masked_func (String.toList "def f(): <FILL_FUNCTION_BODY> end")) = 1 ∧
      BEGIN_TOKEN <+: build_masked_func (String.toList "def f(): <FILL_FUNCTION_BODY> end") ∧
      END_TOKEN <:+ build_masked_func (String.toList "def f(): <FILL_FUNCTION_BODY> end")) :=
  ⟨by decide, by decide,
    build_masked_func_single_hole _ (by decide) (by decide)⟩

/-- C2 counterexample: a masked-code string containing exactly one
placeholder occurrence but also a literal hole sentinel; the output then
contains two hole sentinels, not one. -/
theorem build_masked_func_single_hole_cex :
    countOccs FILL_FUNCTION_BODY
      (String.toList "<FILL_FUNCTION_BODY><｜fim▁hole｜>") = 1 ∧
    countOccs FILL_TOKEN
      (build_masked_func (String.toList "<FILL_FUNCTION_BODY><｜fim▁hole｜>")) = 2 := by
  decide

/-- C7 (amended): for every input containing no occurrence of `FILL_TOKEN`
itself, `build_masked_func` returns (without raising) a string with exactly
as many hole sentinels as the input had placeholder occurrences (zero when
absent, k when the placeholder appears k times), and the output is always
`BEGIN_TOKEN ++ (input with replacements) ++ END_TOKEN`. -/
theorem build_masked_func_occurrence_count (s : List Char)
    (h0 : countOccs FILL_TOKEN s = 0) :
    countOccs FILL_TOKEN (build_masked_func s) = countOccs FILL_FUNCTION_BODY s ∧
    build_masked_func s =
      BEGIN_TOKEN ++ replaceList FILL_FUNCTION_BODY FILL_TOKEN s ++ END_TOKEN := by
  refine ⟨?_, rfl⟩
  unfold build_masked_func
  rw [countOccs_wrap, countOccs_replaceList s h0]

theorem build_masked_func_occurrence_count_witness :
    countOccs FILL_TOKEN
      (String.toList "a<FILL_FUNCTION_BODY>b<FILL_FUNCTION_BODY>c") = 0 ∧
    countOccs FILL_FUNCTION_BODY
      (String.toList "a<FILL_FUNCTION_BODY>b<FILL_FUNCTION_BODY>c") = 2 ∧
    (countOccs FILL_TOKEN
        (build_masked_func (String.toList "a<FILL_FUNCTION_BODY>b<FILL_FUNCTION_BODY>c")) =
      countOccs FILL_FUNCTION_BODY
        (String.toList "a<FILL_FUNCTION_BODY>b<FILL_FUNCTION_BODY>c") ∧
      build_masked_func (String.toList "a<FILL_FUNCTION_BODY>b<FILL_FUNCTION_BODY>c") =
        BEGIN_TOKEN ++ replaceList FILL_FUNCTION_BODY FILL_TOKEN
          (String.toList "a<FILL_FUNCTION_BODY>b<FILL_FUNCTION_BODY>c") ++ END_TOKEN) :=
  ⟨by decide, by decide, build_masked_func_occurrence_count _ (by decide)⟩

/-- C7 counterexample: with the placeholder absent but a literal hole
sentinel present in the input, the output contains one hole sentinel, not
zero. -/
theorem build_masked_func_occurrence_count_cex :
    countOccs FILL_FUNCTION_BODY (String.toList "x<｜fim▁hole｜>y") = 0 ∧
    countOccs FILL_TOKEN
      (build_masked_func (String.toList "x<｜fim▁hole｜>y")) = 1 := by
  decide

/-- C4: on the record with masked code `"def f(x):\n<FILL_FUNCTION_BODY>"`
and body `"return x+1"`, `train_tokenize_function` builds exactly the prompt
`BEGIN_TOKEN ++ "def f(x):\n" ++ FILL_TOKEN ++ END_TOKEN` and the target
`"return x+1\n<|EOT|>"`. -/
theorem train_format_example :
    train_sources
        ⟨[String.toList "def f(x):\n<FILL_FUNCTION_BODY>"], [String.toList "return x+1"]⟩ =
      [BEGIN_TOKEN ++ String.toList "def f(x):\n" ++ FILL_TOKEN ++ END_TOKEN] ∧
    train_targets
        ⟨[String.toList "def f(x):\n<FILL_FUNCTION_BODY>"], [String.toList "return x+1"]⟩ =
      [String.toList "return x+1\n<|EOT|>"] := by
  decide

/-- What `preprocess` puts at batch position `k`: the tokenized
prompt+target concatenation, and that same sequence with its first
`source_len` positions masked, where `source_len` is the non-pad count of
the tokenized prompt alone. -/
theorem preprocess_getD (sources targets : List (List Char)) (tok : Tokenizer)
    (hlen : sources.length = targets.length) (k : Nat) (hk : k < sources.length) :
    (preprocess sources targets tok).input_ids.getD k [] =
      callTokenizer tok (sources.getD k [] ++ targets.getD k []) ∧
    (preprocess sources targets tok).labels.getD k [] =
      maskFirst (countNonPad tok.pad_token_id (callTokenizer tok (sources.getD k [])))
        (callTokenizer tok (sources.getD k [] ++ targets.getD k [])) := by
  have hzlen : (List.zip sources targets).length = sources.length := by
    rw [List.length_zip]
    omega
  have hids : (preprocess sources targets tok).input_ids =
      ((List.zip sources targets).map (fun p => p.1 ++ p.2)).map
        (fun text => callTokenizer tok text) := rfl
  have hex : (preprocess sources targets tok).input_ids.getD k [] =
      callTokenizer tok (sources.getD k [] ++ targets.getD k []) := by
    rw [hids, getD_map_of_lt _ _ k (by rw [List.length_map, hzlen]; omega) _ [],
      getD_map_of_lt _ _ k (by rw [hzlen]; omega) _ ([], []),
      getD_zip_of_lt sources targets k (by omega) (by omega) [] []]
  refine ⟨hex, ?_⟩
  have hlabs : (preprocess sources targets tok).labels =
      (List.zip ((preprocess sources targets tok).input_ids)
          ((sources.map (fun text => callTokenizer tok text)).map
            (fun ids => countNonPad tok.pad_token_id ids))).map
        (fun p => maskFirst p.2 p.1) := rfl
  have hidslen : (preprocess sources targets tok).input_ids.length = sources.length := by
    rw [hids, List.length_map, List.length_map, hzlen]
  have hlenslen : ((sources.map (fun text => callTokenizer tok text)).map
      (fun ids => countNonPad tok.pad_token_id ids)).length = sources.length := by
    rw [List.length_map, List.length_map]
  rw [hlabs, getD_map_of_lt _ _ k
      (by rw [List.length_zip, hidslen, hlenslen]; omega) _ ([], 0),
    getD_zip_of_lt _ _ k (by omega) (by rw [hlenslen]; omega) [] 0,
    getD_map_of_lt _ _ k (by rw [List.length_map]; omega) _ [],
    getD_map_of_lt _ _ k (by omega) _ []]
  rw [hex]

/-- C1: for every prompt/target pair of the batch, `preprocess` produces a
label sequence of the same length as the input-id sequence, whose positions
within the prompt's token span (the first `N`, `N` the token length of the
tokenized prompt alone — provided the tokenizer never emits the pad id, as
the non-pad count of the code then equals that length) hold `IGNORE_INDEX`,
and whose positions after the span hold the corresponding input id. -/
theorem preprocess_label_spec (sources targets : List (List Char)) (tok : Tokenizer)
    (hlen : sources.length = targets.length) (k : Nat) (hk : k < sources.length)
    (hpad : tok.pad_token_id ∉ callTokenizer tok (sources.getD k [])) :
    ((preprocess sources targets tok).labels.getD k []).length =
      ((preprocess sources targets tok).input_ids.getD k []).length ∧
    (∀ i, i < (callTokenizer tok (sources.getD k [])).length →
      i < ((preprocess sources targets tok).input_ids.getD k []).length →
      ((preprocess sources targets tok).labels.getD k []).getD i 0 = IGNORE_INDEX) ∧
    (∀ i, (callTokenizer tok (sources.getD k [])).length ≤ i →
      i < ((preprocess sources targets tok).input_ids.getD k []).length →
      ((preprocess sources targets tok).labels.getD k []).getD i 0 =
        ((preprocess sources targets tok).input_ids.getD k []).getD i 0) := by
  obtain ⟨hids, hlabs⟩ := preprocess_getD sources targets tok hlen k hk
  rw [hids, hlabs, countNonPad_eq_length _ _ hpad]
  refine ⟨maskFirst_length _ _, ?_, ?_⟩
  · intro i hi hilen
    exact maskFirst_getD_lt _ _ i 0 hi hilen
  · intro i hi hilen
    exact maskFirst_getD_ge _ _ i 0 hi

theorem preprocess_label_spec_witness :
    ([String.toList "ab"] : List (List Char)).length = ([String.toList "cd"] : List (List Char)).length ∧
    0 < ([String.toList "ab"] : List (List Char)).length ∧
    toyTok.pad_token_id ∉ callTokenizer toyTok (([String.toList "ab"] : List (List Char)).getD 0 []) ∧
    (((preprocess [String.toList "ab"] [String.toList "cd"] toyTok).labels.getD 0 []).length =
        ((preprocess [String.toList "ab"] [String.toList "cd"] toyTok).input_ids.getD 0 []).length ∧
      (∀ i, i < (callTokenizer toyTok (([String.toList "ab"] : List (List Char)).getD 0 [])).length →
        i < ((preprocess [String.toList "ab"] [String.toList "cd"] toyTok).input_ids.getD 0 []).length →
        ((preprocess [String.toList "ab"] [String.toList "cd"] toyTok).labels.getD 0 []).getD i 0 =
          IGNORE_INDEX) ∧
      (∀ i, (callTokenizer toyTok (([String.toList "ab"] : List (List Char)).getD 0 [])).length ≤ i →
        i < ((preprocess [String.toList "ab"] [String.toList "cd"] toyTok).input_ids.getD 0 []).length →
        ((preprocess [String.toList "ab"] [String.toList "cd"] toyTok).labels.getD 0 []).getD i 0 =
          ((preprocess [String.toList "ab"] [String.toList "cd"] toyTok).input_ids.getD 0 []).getD i 0)) :=
  ⟨by decide, by decide, by decide,
    preprocess_label_spec [String.toList "ab"] [String.toList "cd"] toyTok
      (by decide) 0 (by decide) (by decide)⟩

/-- C5 (amended): `_tokenize_fn` truncates each string's tokenization to
`tokenizer.model_max_length`, but tokenizes every string of the sub-batch in
its own singleton call, so `padding="longest"` adds no cross-example
padding: each example keeps its own truncated length (the minimum of its
encoded length and the maximum length), and examples of a sub-batch need
not have equal lengths. -/
theorem tokenize_fn_truncates_no_padding (strings : List (List Char))
    (tok : Tokenizer) (k : Nat) (hk : k < strings.length) :
    (_tokenize_fn strings tok).input_ids.getD k [] =
      (tok.encode (strings.getD k [])).take tok.model_max_length ∧
    ((_tokenize_fn strings tok).input_ids.getD k []).length =
      min tok.model_max_length (tok.encode (strings.getD k [])).length ∧
    ((_tokenize_fn strings tok).input_ids.getD k []).length ≤ tok.model_max_length := by
  have h1 : (_tokenize_fn strings tok).input_ids.getD k [] =
      callTokenizer tok (strings.getD k []) := by
    have hm : (_tokenize_fn strings tok).input_ids =
        strings.map (fun text => callTokenizer tok text) := rfl
    rw [hm, getD_map_of_lt _ _ k hk _ []]
  rw [h1]
  refine ⟨rfl, ?_, ?_⟩
  · unfold callTokenizer
    rw [List.length_take]
  · unfold callTokenizer
    rw [List.length_take]
    omega

theorem tokenize_fn_truncates_no_padding_witness :
    0 < ([String.toList "abcdefghij", String.toList "a"] : List (List Char)).length ∧
    ((_tokenize_fn [String.toList "abcdefghij", String.toList "a"] toyTok).input_ids.getD 0 [] =
        (toyTok.encode (([String.toList "abcdefghij", String.toList "a"] : List (List Char)).getD 0 [])).take
          toyTok.model_max_length ∧
      ((_tokenize_fn [String.toList "abcdefghij", String.toList "a"] toyTok).input_ids.getD 0 []).length =
        min toyTok.model_max_length
          (toyTok.encode (([String.toList "abcdefghij", String.toList "a"] : List (List Char)).getD 0 [])).length ∧
      ((_tokenize_fn [String.toList "abcdefghij", String.toList "a"] toyTok).input_ids.getD 0 []).length ≤
        toyTok.model_max_length) :=
  ⟨by decide,
    tokenize_fn_truncates_no_padding [String.toList "abcdefghij", String.toList "a"] toyTok 0 (by decide)⟩

/-- C5 counterexample: a two-string sub-batch whose tokenized examples come
out with lengths 2 and 1 — `_tokenize_fn` does not pad them to a common
length. -/
theorem tokenize_fn_equal_length_cex :
    ((_tokenize_fn [String.toList "ab", String.toList "a"] toyTok).input_ids.getD 0 []).length = 2 ∧
    ((_tokenize_fn [String.toList "ab", String.toList "a"] toyTok).input_ids.getD 1 []).length = 1 ∧
    ¬ ((_tokenize_fn [String.toList "ab", String.toList "a"] toyTok).input_ids.getD 0 []).length =
        ((_tokenize_fn [String.toList "ab", String.toList "a"] toyTok).input_ids.getD 1 []).length := by
  decide

theorem batchMaxLen_labels_eq (instances : List SFTInstance)
    (hinst : ∀ inst ∈ instances, inst.labels.length = inst.input_ids.length) :
    batchMaxLen (instances.map (fun inst => inst.labels)) =
      batchMaxLen (instances.map (fun inst => inst.input_ids)) := by
  unfold batchMaxLen
  simp only [List.map_map]
  congr 1
  apply List.map_congr_left
  intro inst hmem
  simp only [Function.comp_apply]
  exact hinst inst hmem

theorem collator_ids_row (tok : Tokenizer) (instances : List SFTInstance)
    (k : Nat) (hk : k < instances.length) :
    (DataCollatorForSupervisedDataset_call tok instances).input_ids.getD k [] =
      (instances.getD k ⟨[], []⟩).input_ids ++
        List.replicate (batchMaxLen (instances.map (fun inst => inst.input_ids)) -
          (instances.getD k ⟨[], []⟩).input_ids.length) tok.pad_token_id := by
  have h : (DataCollatorForSupervisedDataset_call tok instances).input_ids =
      pad_sequence (instances.map (fun inst => inst.input_ids)) tok.pad_token_id := rfl
  rw [h, pad_sequence_getD _ _ k (by rw [List.length_map]; omega),
    getD_map_of_lt _ _ k hk _ ⟨[], []⟩]

theorem collator_labels_row (tok : Tokenizer) (instances : List SFTInstance)
    (k : Nat) (hk : k < instances.length) :
    (DataCollatorForSupervisedDataset_call tok instances).labels.getD k [] =
      (instances.getD k ⟨[], []⟩).labels ++
        List.replicate (batchMaxLen (instances.map (fun inst => inst.labels)) -
          (instances.getD k ⟨[], []⟩).labels.length) IGNORE_INDEX := by
  have h : (DataCollatorForSupervisedDataset_call tok instances).labels =
      pad_sequence (instances.map (fun inst => inst.labels)) IGNORE_INDEX := rfl
  rw [h, pad_sequence_getD _ _ k (by rw [List.length_map]; omega),
    getD_map_of_lt _ _ k hk _ ⟨[], []⟩]

theorem collator_ids_length (tok : Tokenizer) (instances : List SFTInstance) :
    (DataCollatorForSupervisedDataset_call tok instances).input_ids.length =
      instances.length := by
  have h : (DataCollatorForSupervisedDataset_call tok instances).input_ids =
      pad_sequence (instances.map (fun inst => inst.input_ids)) tok.pad_token_id := rfl
  rw [h]
  unfold pad_sequence
  rw [List.length_map, List.length_map]

theorem collator_mask_row (tok : Tokenizer) (instances : List SFTInstance)
    (k : Nat) (hk : k < instances.length) :
    (DataCollatorForSupervisedDataset_call tok instances).attention_mask.getD k [] =
      ((DataCollatorForSupervisedDataset_call tok instances).input_ids.getD k []).map
        (fun x => x != tok.pad_token_id) := by
  have h : (DataCollatorForSupervisedDataset_call tok instances).attention_mask =
      (DataCollatorForSupervisedDataset_call tok instances).input_ids.map
        (fun row => row.map (fun x => x != tok.pad_token_id)) := rfl
  rw [h, getD_map_of_lt _ _ k (by rw [collator_ids_length]; omega) _ []]

theorem collator_ids_row_length (tok : Tokenizer) (instances : List SFTInstance)
    (k : Nat) (hk : k < instances.length) :
    ((DataCollatorForSupervisedDataset_call tok instances).input_ids.getD k []).length =
      batchMaxLen (instances.map (fun inst => inst.input_ids)) := by
  have h : (DataCollatorForSupervisedDataset_call tok instances).input_ids =
      pad_sequence (instances.map (fun inst => inst.input_ids)) tok.pad_token_id := rfl
  rw [h, pad_sequence_row_length _ _ k (by rw [List.length_map]; omega)]

/-- C3: for every batch of tokenized examples with per-example equal
input-id/label lengths, the collator right-pads input ids and labels to one
common width — the maximum input-id length across the batch — padding the
labels with `IGNORE_INDEX` (not the pad id), and the attention mask is 1
exactly where the padded input id differs from the tokenizer's pad id. -/
theorem collator_spec (tok : Tokenizer) (instances : List SFTInstance)
    (hinst : ∀ inst ∈ instances, inst.labels.length = inst.input_ids.length)
    (k : Nat) (hk : k < instances.length) :
    ((DataCollatorForSupervisedDataset_call tok instances).input_ids.getD k []).length =
      batchMaxLen (instances.map (fun inst => inst.input_ids)) ∧
    ((DataCollatorForSupervisedDataset_call tok instances).labels.getD k []).length =
      batchMaxLen (instances.map (fun inst => inst.input_ids)) ∧
    (DataCollatorForSupervisedDataset_call tok instances).input_ids.getD k [] =
      (instances.getD k ⟨[], []⟩).input_ids ++
        List.replicate (batchMaxLen (instances.map (fun inst => inst.input_ids)) -
          (instances.getD k ⟨[], []⟩).input_ids.length) tok.pad_token_id ∧
    (DataCollatorForSupervisedDataset_call tok instances).labels.getD k [] =
      (instances.getD k ⟨[], []⟩).labels ++
        List.replicate (batchMaxLen (instances.map (fun inst => inst.input_ids)) -
          (instances.getD k ⟨[], []⟩).labels.length) IGNORE_INDEX ∧
    (∀ i, i < batchMaxLen (instances.map (fun inst => inst.input_ids)) →
      (((DataCollatorForSupervisedDataset_call tok instances).attention_mask.getD k []).getD i false = true ↔
        ((DataCollatorForSupervisedDataset_call tok instances).input_ids.getD k []).getD i 0 ≠
          tok.pad_token_id)) := by
  have hML := batchMaxLen_labels_eq instances hinst
  refine ⟨collator_ids_row_length tok instances k hk, ?_, collator_ids_row tok instances k hk, ?_, ?_⟩
  · have h : (DataCollatorForSupervisedDataset_call tok instances).labels =
        pad_sequence (instances.map (fun inst => inst.labels)) IGNORE_INDEX := rfl
    rw [h, pad_sequence_row_length _ _ k (by rw [List.length_map]; omega), hML]
  · rw [collator_labels_row tok instances k hk, hML]
  · intro i hi
    rw [collator_mask_row tok instances k hk,
      getD_map_of_lt _ _ i (by rw [collator_ids_row_length tok instances k hk]; omega) _ 0]
    simp [bne_iff_ne]

theorem collator_spec_witness :
    (∀ inst ∈ ([⟨[1, 2], [IGNORE_INDEX, 2]⟩, ⟨[3], [3]⟩] : List SFTInstance),
      inst.labels.length = inst.input_ids.length) ∧
    0 < ([⟨[1, 2], [IGNORE_INDEX, 2]⟩, ⟨[3], [3]⟩] : List SFTInstance).length ∧
    (((DataCollatorForSupervisedDataset_call toyTok [⟨[1, 2], [IGNORE_INDEX, 2]⟩, ⟨[3], [3]⟩]).input_ids.getD 1 []).length =
        batchMaxLen (([⟨[1, 2], [IGNORE_INDEX, 2]⟩, ⟨[3], [3]⟩] : List SFTInstance).map (fun inst => inst.input_ids)) ∧
      ((DataCollatorForSupervisedDataset_call toyTok [⟨[1, 2], [IGNORE_INDEX, 2]⟩, ⟨[3], [3]⟩]).labels.getD 1 []).length =
        batchMaxLen (([⟨[1, 2], [IGNORE_INDEX, 2]⟩, ⟨[3], [3]⟩] : List SFTInstance).map (fun inst => inst.input_ids)) ∧
      (DataCollatorForSupervisedDataset_call toyTok [⟨[1, 2], [IGNORE_INDEX, 2]⟩, ⟨[3], [3]⟩]).input_ids.getD 1 [] =
        (([⟨[1, 2], [IGNORE_INDEX, 2]⟩, ⟨[3], [3]⟩] : List SFTInstance).getD 1 ⟨[], []⟩).input_ids ++
          List.replicate (batchMaxLen (([⟨[1, 2], [IGNORE_INDEX, 2]⟩, ⟨[3], [3]⟩] : List SFTInstance).map (fun inst => inst.input_ids)) -
            (([⟨[1, 2], [IGNORE_INDEX, 2]⟩, ⟨[3], [3]⟩] : List SFTInstance).getD 1 ⟨[], []⟩).input_ids.length) toyTok.pad_token_id ∧
      (DataCollatorForSupervisedDataset_call toyTok [⟨[1, 2], [IGNORE_INDEX, 2]⟩, ⟨[3], [3]⟩]).labels.getD 1 [] =
        (([⟨[1, 2], [IGNORE_INDEX, 2]⟩, ⟨[3], [3]⟩] : List SFTInstance).getD 1 ⟨[], []⟩).labels ++
          List.replicate (batchMaxLen (([⟨[1, 2], [IGNORE_INDEX, 2]⟩, ⟨[3], [3]⟩] : List SFTInstance).map (fun inst => inst.input_ids)) -
            (([⟨[1, 2], [IGNORE_INDEX, 2]⟩, ⟨[3], [3]⟩] : List SFTInstance).getD 1 ⟨[], []⟩).labels.length) IGNORE_INDEX ∧
      (∀ i, i < batchMaxLen (([⟨[1, 2], [IGNORE_INDEX, 2]⟩, ⟨[3], [3]⟩] : List SFTInstance).map (fun inst => inst.input_ids)) →
        (((DataCollatorForSupervisedDataset_call toyTok [⟨[1, 2], [IGNORE_INDEX, 2]⟩, ⟨[3], [3]⟩]).attention_mask.getD 1 []).getD i false = true ↔
          ((DataCollatorForSupervisedDataset_call toyTok [⟨[1, 2], [IGNORE_INDEX, 2]⟩, ⟨[3], [3]⟩]).input_ids.getD 1 []).getD i 0 ≠
            toyTok.pad_token_id))) :=
  ⟨by decide, by decide,
    collator_spec toyTok [⟨[1, 2], [IGNORE_INDEX, 2]⟩, ⟨[3], [3]⟩] (by decide) 1 (by decide)⟩

/-- C6 (amended): the collator's attention mask is 1 exactly where the
padded input id differs from the tokenizer's pad id; when no original
(pre-padding) token equals the pad id, this coincides with being 1 exactly
at the positions within the example's original length and 0 at padding
positions. -/
theorem attention_mask_spec (tok : Tokenizer) (instances : List SFTInstance)
    (hpad : ∀ inst ∈ instances, tok.pad_token_id ∉ inst.input_ids)
    (k : Nat) (hk : k < instances.length) (i : Nat)
    (hi : i < batchMaxLen (instances.map (fun inst => inst.input_ids))) :
    ((DataCollatorForSupervisedDataset_call tok instances).attention_mask.getD k []).getD i false = true ↔
      i < (instances.getD k ⟨[], []⟩).input_ids.length := by
  rw [collator_mask_row tok instances k hk,
    getD_map_of_lt _ _ i (by rw [collator_ids_row_length tok instances k hk]; omega) _ 0,
    collator_ids_row tok instances k hk]
  by_cases hcase : i < (instances.getD k ⟨[], []⟩).input_ids.length
  · rw [List.getD_append _ _ _ _ hcase]
    have hmem : (instances.getD k ⟨[], []⟩).input_ids.getD i 0 ∈
        (instances.getD k ⟨[], []⟩).input_ids := getD_mem_of_lt _ i hcase 0
    have hne : (instances.getD k ⟨[], []⟩).input_ids.getD i 0 ≠ tok.pad_token_id := by
      intro heq
      exact hpad _ (getD_mem_of_lt instances k hk ⟨[], []⟩) (heq ▸ hmem)
    simp only [bne_iff_ne, ne_eq]
    exact iff_of_true hne hcase
  · push_neg at hcase
    rw [List.getD_append_right _ _ _ _ hcase, getD_replicate_of_lt _ _ _ _ (by omega)]
    constructor
    · intro h
      exact absurd h (by simp)
    · intro h
      omega

theorem attention_mask_spec_witness :
    (∀ inst ∈ ([⟨[5, 6], [7, 8]⟩] : List SFTInstance),
      toyTok.pad_token_id ∉ inst.input_ids) ∧
    0 < ([⟨[5, 6], [7, 8]⟩] : List SFTInstance).length ∧
    1 < batchMaxLen (([⟨[5, 6], [7, 8]⟩] : List SFTInstance).map (fun inst => inst.input_ids)) ∧
    (((DataCollatorForSupervisedDataset_call toyTok [⟨[5, 6], [7, 8]⟩]).attention_mask.getD 0 []).getD 1 false = true ↔
      1 < (([⟨[5, 6], [7, 8]⟩] : List SFTInstance).getD 0 ⟨[], []⟩).input_ids.length) :=
  ⟨by decide, by decide, by decide,
    attention_mask_spec toyTok [⟨[5, 6], [7, 8]⟩] (by decide) 0 (by decide) 1 (by decide)⟩

/-- C6 counterexample: an example whose first (pre-padding) token is the pad
id itself; the mask is 0 there although the position is within the example's
original length. -/
theorem attention_mask_cex :
    (0 : Nat) < ((⟨[0], [5]⟩ : SFTInstance).input_ids).length ∧
    ((DataCollatorForSupervisedDataset_call toyTok [⟨[0], [5]⟩]).attention_mask.getD 0 []).getD 0 true = false := by
  decide

/-- C10: at every padded position of every collated example (indices from
the example's original length up to the batch width) the input-id tensor
holds the pad id, the label tensor holds `IGNORE_INDEX`, and the attention
mask is 0. -/
theorem collator_padding_positions (tok : Tokenizer) (instances : List SFTInstance)
    (hinst : ∀ inst ∈ instances, inst.labels.length = inst.input_ids.length)
    (k : Nat) (hk : k < instances.length) (i : Nat)
    (hge : (instances.getD k ⟨[], []⟩).input_ids.length ≤ i)
    (hi : i < batchMaxLen (instances.map (fun inst => inst.input_ids))) :
    ((DataCollatorForSupervisedDataset_call tok instances).input_ids.getD k []).getD i (tok.pad_token_id + 1) =
      tok.pad_token_id ∧
    ((DataCollatorForSupervisedDataset_call tok instances).labels.getD k []).getD i 0 =
      IGNORE_INDEX ∧
    ((DataCollatorForSupervisedDataset_call tok instances).attention_mask.getD k []).getD i true = false := by
  have hlabeq : (instances.getD k ⟨[], []⟩).labels.length =
      (instances.getD k ⟨[], []⟩).input_ids.length :=
    hinst _ (getD_mem_of_lt instances k hk ⟨[], []⟩)
  have hML := batchMaxLen_labels_eq instances hinst
  refine ⟨?_, ?_, ?_⟩
  · rw [collator_ids_row tok instances k hk, List.getD_append_right _ _ _ _ hge,
      getD_replicate_of_lt _ _ _ _ (by omega)]
  · rw [collator_labels_row tok instances k hk,
      List.getD_append_right _ _ _ _ (by omega),
      getD_replicate_of_lt _ _ _ _ (by rw [hML]; omega)]
  · rw [collator_mask_row tok instances k hk,
      getD_map_of_lt _ _ i (by rw [collator_ids_row_length tok instances k hk]; omega) _ 0,
      collator_ids_row tok instances k hk, List.getD_append_right _ _ _ _ hge,
      getD_replicate_of_lt _ _ _ _ (by omega)]
    simp

theorem collator_padding_positions_witness :
    (∀ inst ∈ ([⟨[1], [1]⟩, ⟨[2, 3], [IGNORE_INDEX, 3]⟩] : List SFTInstance),
      inst.labels.length = inst.input_ids.length) ∧
    0 < ([⟨[1], [1]⟩, ⟨[2, 3], [IGNORE_INDEX, 3]⟩] : List SFTInstance).length ∧
    (([⟨[1], [1]⟩, ⟨[2, 3], [IGNORE_INDEX, 3]⟩] : List SFTInstance).getD 0 ⟨[], []⟩).input_ids.length ≤ 1 ∧
    1 < batchMaxLen (([⟨[1], [1]⟩, ⟨[2, 3], [IGNORE_INDEX, 3]⟩] : List SFTInstance).map (fun inst => inst.input_ids)) ∧
    (((DataCollatorForSupervisedDataset_call toyTok [⟨[1], [1]⟩, ⟨[2, 3], [IGNORE_INDEX, 3]⟩]).input_ids.getD 0 []).getD 1 (toyTok.pad_token_id + 1) =
        toyTok.pad_token_id ∧
      ((DataCollatorForSupervisedDataset_call toyTok [⟨[1], [1]⟩, ⟨[2, 3], [IGNORE_INDEX, 3]⟩]).labels.getD 0 []).getD 1 0 =
        IGNORE_INDEX ∧
      ((DataCollatorForSupervisedDataset_call toyTok [⟨[1], [1]⟩, ⟨[2, 3], [IGNORE_INDEX, 3]⟩]).attention_mask.getD 0 []).getD 1 true = false) :=
  ⟨by decide, by decide, by decide, by decide,
    collator_padding_positions toyTok [⟨[1], [1]⟩, ⟨[2, 3], [IGNORE_INDEX, 3]⟩]
      (by decide) 0 (by decide) 1 (by decide) (by decide)⟩

/-- C8: in the script's per-rank call order, rank 0 runs the dataset map
before its barrier call and every rank with `local_rank > 0` calls the
barrier before its own dataset map; hence in every execution respecting
program order and the collective barrier semantics, no rank `r > 0` starts
mapping before rank 0 has finished building the cache. -/
theorem barrier_serializes_dataset_map (W : Int) (e : BarrierExec)
    (hW0 : 0 < W) (hvalid : ValidExec W e) (r : Int) (hr : 0 < r) (hrW : r < W) :
    trainEvents 0 = [TrainEvent.mapDataset, TrainEvent.barrier] ∧
    trainEvents r = [TrainEvent.barrier, TrainEvent.mapDataset] ∧
    e.mapEnd 0 ≤ e.mapStart r := by
  have h0 : trainEvents 0 = [TrainEvent.mapDataset, TrainEvent.barrier] := by decide
  have hre : trainEvents r = [TrainEvent.barrier, TrainEvent.mapDataset] := by
    unfold trainEvents
    rw [if_pos hr, if_neg (by omega : ¬ r = 0)]
    rfl
  refine ⟨h0, hre, ?_⟩
  obtain ⟨horder, hcoll⟩ := hvalid
  have h1 := (horder 0 le_rfl hW0).2.2.2 h0
  have h2 := (horder r (le_of_lt hr) hrW).2.2.1 hre
  have h3 := hcoll 0 r le_rfl hW0 (le_of_lt hr) hrW
  omega

theorem barrier_serializes_dataset_map_witness :
    (0 : Int) < 2 ∧ ValidExec 2 sampleExec ∧ (0 : Int) < 1 ∧ (1 : Int) < 2 ∧
    (trainEvents 0 = [TrainEvent.mapDataset, TrainEvent.barrier] ∧
      trainEvents 1 = [TrainEvent.barrier, TrainEvent.mapDataset] ∧
      sampleExec.mapEnd 0 ≤ sampleExec.mapStart 1) := by
  have hv : ValidExec 2 sampleExec := by
    constructor
    · intro r hr0 hr2
      have hcase : r = 0 ∨ r = 1 := by omega
      rcases hcase with rfl | rfl
      · exact ⟨by decide, by decide, fun h => absurd h (by decide), fun _ => by decide⟩
      · exact ⟨by decide, by decide, fun _ => by decide, fun h => absurd h (by decide)⟩
    · intro r s hr0 hrW hs0 hsW
      have hcr : r = 0 ∨ r = 1 := by omega
      have hcs : s = 0 ∨ s = 1 := by omega
      rcases hcr with rfl | rfl <;> rcases hcs with rfl | rfl <;> decide
  exact ⟨by decide, hv, by decide, by decide,
    barrier_serializes_dataset_map 2 sampleExec (by decide) hv 1 (by decide) (by decide)⟩

/-- C9: the `load_dataset` call selects the split `"train[:5%]"`; under the
split-slicing contract this loads a proper leading portion of the train
split — a prefix of the records whose length is the 5% boundary
`round(5n/100)` (at most `(n+10)/20`), strictly fewer than all records
whenever any exist — so preprocessing and training only ever see that
leading portion. -/
theorem load_train_split_spec {α : Type} (records : List α) :
    load_train_split records <+: records ∧
    (load_train_split records).length = (5 * records.length + 50) / 100 ∧
    20 * (load_train_split records).length ≤ records.length + 10 ∧
    (1 ≤ records.length → (load_train_split records).length < records.length) := by
  have hq := Nat.div_mul_le_self (5 * records.length + 50) 100
  have hlen : (load_train_split records).length = (5 * records.length + 50) / 100 := by
    unfold load_train_split
    rw [List.length_take]
    omega
  refine ⟨?_, hlen, ?_, ?_⟩
  · unfold load_train_split
    exact pfx_take _ _
  · rw [hlen]
    omega
  · intro h1
    rw [hlen]
    omega

theorem load_train_split_spec_witness :
    train_split_spec = String.toList "train[:5%]" ∧
    1 ≤ (List.range 30).length ∧
    (load_train_split (List.range 30) <+: List.range 30 ∧
      (load_train_split (List.range 30)).length = (5 * (List.range 30).length + 50) / 100 ∧
      20 * (load_train_split (List.range 30)).length ≤ (List.range 30).length + 10 ∧
      (1 ≤ (List.range 30).length → (load_train_split (List.range 30)).length < (List.range 30).length)) ∧
    (load_train_split (List.range 30)).length < (List.range 30).length :=
  ⟨rfl, by decide, load_train_split_spec (List.range 30),
    (load_train_split_spec (List.range 30)).2.2.2 (by decide)⟩
